import Mathlib

/-!
Verification of the transactional configuration-update protocol of
`common/configtx/api` (Hyperledger Fabric).  The repository source under
`src/common/configtx/api/api.go` contains only the Go interface
declarations (`Manager`, `Handler`, `Transactional`, `Initializer`,
`Resources`, ...); the coordinator implementation, the configuration
tree, and the diff/merge algorithms they imply are described by the
specification.  The definitions below therefore embed the data model and
protocol faithfully from the specification's words (marked
`Modelled from the spec:`), keeping the source's names where possible.
-/

namespace Fabric

/-- Modelled from the spec: an opaque versioned value payload
(`ConfigValue`: key, raw bytes, version), interpreted by exactly one
owning Handler.  The raw bytes are modelled as a `String`. -/
structure ConfigValue where
  data : String
  version : Nat
deriving DecidableEq, Repr

/-- Modelled from the spec: a named authorization rule (`ConfigPolicy`)
attached to a group, interpreted by the PolicyManager/PolicyHandler.
The policy expression is modelled as a `String`. -/
structure ConfigPolicy where
  policy : String
  version : Nat
deriving DecidableEq, Repr

/-- Modelled from the spec: `ConfigGroup`, a named node in the
configuration tree owning a map of sub-group name to group, a map of
value-key to `ConfigValue`, a map of policy-key to `ConfigPolicy`, and a
mod-policy reference.  Maps are represented as key-sorted association
lists so that equal maps are represented by equal lists. -/
inductive ConfigGroup where
  | node (modPolicy : String)
      (values : List (String × ConfigValue))
      (policies : List (String × ConfigPolicy))
      (groups : List (String × ConfigGroup))

/-- Insert (or overwrite) a key in a key-sorted association list,
keeping the list sorted. -/
def insertA {α : Type} (k : String) (v : α) : List (String × α) → List (String × α)
  | [] => [(k, v)]
  | (a, b) :: r =>
    if k < a then (k, v) :: (a, b) :: r
    else if k = a then (k, v) :: r
    else (a, b) :: insertA k v r

/-- Remove a key from an association list. -/
def eraseA {α : Type} (k : String) (l : List (String × α)) : List (String × α) :=
  l.filter (fun x => x.1 ≠ k)

/-- Look a key up in an association list. -/
def lookupA {α : Type} (k : String) : List (String × α) → Option α
  | [] => none
  | (a, b) :: r => if k = a then some b else lookupA k r

/-- The keys of an association list are strictly increasing. -/
def SortedKeys {α : Type} (l : List (String × α)) : Prop :=
  l.Pairwise (fun x y => x.1 < y.1)

theorem lookupA_insertA_self {α : Type} (k : String) (v : α) (l : List (String × α)) :
    lookupA k (insertA k v l) = some v := by
  induction l with
  | nil => simp [insertA, lookupA]
  | cons hd tl ih =>
    obtain ⟨a, b⟩ := hd
    by_cases h1 : k < a
    · simp [insertA, lookupA, h1]
    · by_cases h2 : k = a
      · simp [insertA, lookupA, h1, h2]
      · simp [insertA, lookupA, h1, h2, ih]

theorem lookupA_insertA_ne {α : Type} {k a : String} (h : a ≠ k) (v : α)
    (l : List (String × α)) : lookupA a (insertA k v l) = lookupA a l := by
  induction l with
  | nil => simp [insertA, lookupA, h]
  | cons hd tl ih =>
    obtain ⟨c, b⟩ := hd
    by_cases h1 : k < c
    · simp [insertA, lookupA, h1, h]
    · by_cases h2 : k = c
      · subst h2
        simp [insertA, lookupA, h1, h]
      · by_cases h3 : a = c
        · simp [insertA, lookupA, h1, h2, h3]
        · simp [insertA, lookupA, h1, h2, h3, ih]

theorem insertA_insertA_self {α : Type} (k : String) (v w : α) (l : List (String × α)) :
    insertA k v (insertA k w l) = insertA k v l := by
  induction l with
  | nil => simp [insertA]
  | cons hd tl ih =>
    obtain ⟨a, b⟩ := hd
    by_cases h1 : k < a
    · simp [insertA, h1, lt_irrefl]
    · by_cases h2 : k = a
      · simp [insertA, h1, h2, lt_irrefl]
      · simp [insertA, h1, h2, ih]

theorem insertA_comm {α : Type} {k1 k2 : String} (h : k1 ≠ k2) (v1 v2 : α)
    (l : List (String × α)) :
    insertA k1 v1 (insertA k2 v2 l) = insertA k2 v2 (insertA k1 v1 l) := by
  induction l with
  | nil =>
    rcases lt_trichotomy k1 k2 with h1 | h1 | h1
    · simp [insertA, h1, h, h.symm, not_lt_of_lt h1]
    · exact absurd h1 h
    · simp [insertA, h1, h, h.symm, not_lt_of_lt h1]
  | cons hd tl ih =>
    obtain ⟨a, b⟩ := hd
    rcases lt_trichotomy k1 a with ha1 | ha1 | ha1 <;>
      rcases lt_trichotomy k2 a with ha2 | ha2 | ha2
    · rcases lt_trichotomy k1 k2 with h12 | h12 | h12
      · simp [insertA, ha1, ha2, h12, h, h.symm, not_lt_of_lt h12]
      · exact absurd h12 h
      · simp [insertA, ha1, ha2, h12, h, h.symm, not_lt_of_lt h12]
    · subst ha2
      simp [insertA, ha1, h.symm, not_lt_of_lt ha1, h]
    · simp [insertA, ha1, not_lt_of_lt ha2, ne_of_gt ha2, not_lt_of_lt ha1,
        ne_of_lt ha1, not_lt_of_lt (ha1.trans ha2), h, h.symm]
    · subst ha1
      simp [insertA, ha2, h, not_lt_of_lt ha2]
    · subst ha1
      exact absurd ha2.symm h
    · subst ha1
      simp [insertA, ha2, h.symm, not_lt_of_lt ha2, lt_irrefl, h]
    · simp [insertA, not_lt_of_lt ha1, ne_of_gt ha1, ha2, not_lt_of_lt ha2,
        ne_of_lt ha2, not_lt_of_lt (ha2.trans ha1), h, h.symm]
    · subst ha2
      simp [insertA, not_lt_of_lt ha1, ne_of_gt ha1, lt_irrefl, h]
    · simp [insertA, not_lt_of_lt ha1, ne_of_gt ha1, not_lt_of_lt ha2,
        ne_of_gt ha2, ih]

theorem mem_insertA {α : Type} {x : String × α} {k : String} {v : α}
    {l : List (String × α)} (h : x ∈ insertA k v l) : x = (k, v) ∨ x ∈ l := by
  induction l with
  | nil => simpa [insertA] using h
  | cons hd tl ih =>
    obtain ⟨a, b⟩ := hd
    by_cases h1 : k < a
    · simp only [insertA, if_pos h1, List.mem_cons] at h
      rcases h with h | h | h
      · exact Or.inl h
      · exact Or.inr (List.mem_cons.mpr (Or.inl h))
      · exact Or.inr (List.mem_cons.mpr (Or.inr h))
    · by_cases h2 : k = a
      · simp only [insertA, if_neg h1, if_pos h2, List.mem_cons] at h
        rcases h with h | h
        · exact Or.inl h
        · exact Or.inr (List.mem_cons.mpr (Or.inr h))
      · simp only [insertA, if_neg h1, if_neg h2, List.mem_cons] at h
        rcases h with h | h
        · exact Or.inr (List.mem_cons.mpr (Or.inl h))
        · rcases ih h with h | h
          · exact Or.inl h
          · exact Or.inr (List.mem_cons.mpr (Or.inr h))

theorem insertA_append_of_lt {α : Type} {k : String} {acc : List (String × α)}
    (h : ∀ x ∈ acc, x.1 < k) (v : α) (rest : List (String × α)) :
    insertA k v (acc ++ rest) = acc ++ insertA k v rest := by
  induction acc with
  | nil => simp
  | cons hd tl ih =>
    obtain ⟨a, b⟩ := hd
    have ha : a < k := h (a, b) (by simp)
    simp only [List.cons_append, insertA, if_neg (not_lt_of_lt ha),
      if_neg (ne_of_gt ha), List.cons.injEq, true_and]
    exact ih (fun x hx => h x (by simp [hx]))

theorem lookupA_append_of_ne {α : Type} {k : String} {acc : List (String × α)}
    (h : ∀ x ∈ acc, x.1 ≠ k) (rest : List (String × α)) :
    lookupA k (acc ++ rest) = lookupA k rest := by
  induction acc with
  | nil => simp
  | cons hd tl ih =>
    obtain ⟨a, b⟩ := hd
    have ha : a ≠ k := h (a, b) (by simp)
    simp only [List.cons_append, lookupA, if_neg (Ne.symm ha)]
    exact ih (fun x hx => h x (by simp [hx]))

theorem eraseA_eq_self {α : Type} {k : String} {l : List (String × α)}
    (h : ∀ x ∈ l, x.1 ≠ k) : eraseA k l = l :=
  List.filter_eq_self.mpr (fun x hx => by simpa using h x hx)

theorem eraseA_middle {α : Type} {k : String} {acc r : List (String × α)}
    (hacc : ∀ x ∈ acc, x.1 ≠ k) (hr : ∀ x ∈ r, x.1 ≠ k) (v : α) :
    eraseA k (acc ++ (k, v) :: r) = acc ++ r := by
  simp only [eraseA, List.filter_append, List.filter_cons]
  rw [if_neg (by simp)]
  have h1 : List.filter (fun x => decide (x.1 ≠ k)) acc = acc := eraseA_eq_self hacc
  have h2 : List.filter (fun x => decide (x.1 ≠ k)) r = r := eraseA_eq_self hr
  rw [h1, h2]

theorem mem_eraseA {α : Type} {x : String × α} {k : String} {l : List (String × α)}
    (h : x ∈ eraseA k l) : x ∈ l := List.mem_of_mem_filter h

theorem mem_of_lookupA {α : Type} {k : String} {v : α} {l : List (String × α)}
    (h : lookupA k l = some v) : (k, v) ∈ l := by
  induction l with
  | nil => simp [lookupA] at h
  | cons hd tl ih =>
    obtain ⟨a, b⟩ := hd
    by_cases h1 : k = a
    · rw [lookupA.eq_def] at h
      simp only [if_pos h1, Option.some.injEq] at h
      subst h1
      subst h
      exact List.mem_cons_self _ _
    · rw [lookupA.eq_def] at h
      simp only [if_neg h1] at h
      exact List.mem_cons_of_mem _ (ih h)

theorem sortedKeys_insertA {α : Type} {l : List (String × α)} (k : String) (v : α)
    (h : SortedKeys l) : SortedKeys (insertA k v l) := by
  induction l with
  | nil => simp [insertA, SortedKeys]
  | cons hd tl ih =>
    obtain ⟨a, b⟩ := hd
    rw [SortedKeys, List.pairwise_cons] at h
    obtain ⟨hlt, htl⟩ := h
    by_cases h1 : k < a
    · rw [SortedKeys, insertA, if_pos h1]
      refine List.pairwise_cons.mpr ⟨?_, List.pairwise_cons.mpr ⟨hlt, htl⟩⟩
      intro x hx
      rcases List.mem_cons.mp hx with rfl | hx
      · exact h1
      · exact h1.trans (hlt x hx)
    · by_cases h2 : k = a
      · subst h2
        rw [SortedKeys, insertA, if_neg h1, if_pos rfl]
        exact List.pairwise_cons.mpr ⟨hlt, htl⟩
      · rw [SortedKeys, insertA, if_neg h1, if_neg h2]
        refine List.pairwise_cons.mpr ⟨?_, ih htl⟩
        intro x hx
        rcases mem_insertA hx with rfl | hx
        · exact lt_of_le_of_ne (not_lt.mp h1) (Ne.symm h2)
        · exact hlt x hx

theorem sortedKeys_eraseA {α : Type} {l : List (String × α)} (k : String)
    (h : SortedKeys l) : SortedKeys (eraseA k l) :=
  List.Pairwise.sublist (List.filter_sublist l) h

/-- Modelled from the spec: the kinds of group/value/policy mutations
(add/modify/delete) an update envelope may carry against the node at a
given path: set or delete a value or policy entry, change the node's
mod-policy, add an (initially empty) sub-group, or delete a sub-group. -/
inductive MutOp where
  | setValue (key : String) (v : ConfigValue)
  | deleteValue (key : String)
  | setPolicy (key : String) (p : ConfigPolicy)
  | deletePolicy (key : String)
  | setModPolicy (mp : String)
  | newGroup (name : String)
  | deleteGroup (name : String)
deriving DecidableEq, Repr

/-- Modelled from the spec: a single mutation of the configuration tree,
an operation applied at the group reached by a path of group names. -/
structure Mutation where
  path : List String
  op : MutOp
deriving DecidableEq, Repr

/-- The empty configuration group. -/
def emptyGroup : ConfigGroup := .node "" [] [] []

/-- Apply one mutation operation at a group node. -/
def applyOp : MutOp → ConfigGroup → ConfigGroup
  | .setValue k v, .node mp vs ps gs => .node mp (insertA k v vs) ps gs
  | .deleteValue k, .node mp vs ps gs => .node mp (eraseA k vs) ps gs
  | .setPolicy k p, .node mp vs ps gs => .node mp vs (insertA k p ps) gs
  | .deletePolicy k, .node mp vs ps gs => .node mp vs (eraseA k ps) gs
  | .setModPolicy m, .node _ vs ps gs => .node m vs ps gs
  | .newGroup x, .node mp vs ps gs => .node mp vs ps (insertA x emptyGroup gs)
  | .deleteGroup x, .node mp vs ps gs => .node mp vs ps (eraseA x gs)

/-- The sub-group of name `a`, or the empty group if absent. -/
def childOr (a : String) (gs : List (String × ConfigGroup)) : ConfigGroup :=
  (lookupA a gs).getD emptyGroup

/-- Apply a transformation to the group at the given path, creating
missing intermediate groups as empty groups. -/
def applyAt : List String → (ConfigGroup → ConfigGroup) → ConfigGroup → ConfigGroup
  | [], f, g => f g
  | a :: rest, f, .node mp vs ps gs =>
    .node mp vs ps (insertA a (applyAt rest f (childOr a gs)) gs)

/-- Apply one mutation to the tree. -/
def applyMut (m : Mutation) (g : ConfigGroup) : ConfigGroup :=
  applyAt m.path (applyOp m.op) g

/-- Modelled from the spec: merging a list of mutations (a structural
diff) into a tree, applying the mutations in order. -/
def applyAll (ms : List Mutation) (g : ConfigGroup) : ConfigGroup :=
  ms.foldl (fun t m => applyMut m t) g

theorem applyAll_nil (g : ConfigGroup) : applyAll [] g = g := rfl

theorem applyAll_cons (m : Mutation) (ms : List Mutation) (g : ConfigGroup) :
    applyAll (m :: ms) g = applyAll ms (applyMut m g) := rfl

theorem applyAll_append (ms1 ms2 : List Mutation) (g : ConfigGroup) :
    applyAll (ms1 ++ ms2) g = applyAll ms2 (applyAll ms1 g) :=
  List.foldl_append _ _ _ _

/-- Well-formedness of a configuration tree: every association list is
key-sorted, recursively. -/
inductive WFGroup : ConfigGroup → Prop where
  | node : ∀ (mp : String) (vs : List (String × ConfigValue))
      (ps : List (String × ConfigPolicy)) (gs : List (String × ConfigGroup)),
      SortedKeys vs → SortedKeys ps → SortedKeys gs →
      (∀ x ∈ gs, WFGroup x.2) → WFGroup (.node mp vs ps gs)

theorem WFGroup_empty : WFGroup emptyGroup := by
  refine WFGroup.node _ _ _ _ ?_ ?_ ?_ ?_ <;> simp [SortedKeys]

theorem WFGroup_applyOp (op : MutOp) {g : ConfigGroup} (h : WFGroup g) :
    WFGroup (applyOp op g) := by
  obtain ⟨mp, vs, ps, gs, hvs, hps, hgs, hsub⟩ := h
  cases op with
  | setValue k v => exact WFGroup.node _ _ _ _ (sortedKeys_insertA k v hvs) hps hgs hsub
  | deleteValue k => exact WFGroup.node _ _ _ _ (sortedKeys_eraseA k hvs) hps hgs hsub
  | setPolicy k p => exact WFGroup.node _ _ _ _ hvs (sortedKeys_insertA k p hps) hgs hsub
  | deletePolicy k => exact WFGroup.node _ _ _ _ hvs (sortedKeys_eraseA k hps) hgs hsub
  | setModPolicy m => exact WFGroup.node _ _ _ _ hvs hps hgs hsub
  | newGroup x =>
    refine WFGroup.node _ _ _ _ hvs hps (sortedKeys_insertA x emptyGroup hgs) ?_
    intro y hy
    rcases mem_insertA hy with rfl | hy
    · exact WFGroup_empty
    · exact hsub y hy
  | deleteGroup x =>
    exact WFGroup.node _ _ _ _ hvs hps (sortedKeys_eraseA x hgs)
      (fun y hy => hsub y (mem_eraseA hy))

theorem WFGroup_childOr (a : String) {gs : List (String × ConfigGroup)}
    (h : ∀ x ∈ gs, WFGroup x.2) : WFGroup (childOr a gs) := by
  unfold childOr
  cases hl : lookupA a gs with
  | none => exact WFGroup_empty
  | some g => exact h (a, g) (mem_of_lookupA hl)

theorem WFGroup_applyAt (p : List String) (f : ConfigGroup → ConfigGroup)
    (hf : ∀ g, WFGroup g → WFGroup (f g)) :
    ∀ {g : ConfigGroup}, WFGroup g → WFGroup (applyAt p f g) := by
  induction p with
  | nil => intro g hg; exact hf g hg
  | cons a rest ih =>
    intro g hg
    obtain ⟨mp, vs, ps, gs, hvs, hps, hgs, hsub⟩ := hg
    rw [applyAt]
    refine WFGroup.node _ _ _ _ hvs hps (sortedKeys_insertA _ _ hgs) ?_
    intro y hy
    rcases mem_insertA hy with rfl | hy
    · exact ih (WFGroup_childOr a hsub)
    · exact hsub y hy

theorem WFGroup_applyMut (m : Mutation) {g : ConfigGroup} (h : WFGroup g) :
    WFGroup (applyMut m g) :=
  WFGroup_applyAt m.path (applyOp m.op) (fun _ hg => WFGroup_applyOp m.op hg) h

theorem WFGroup_applyAll (ms : List Mutation) {g : ConfigGroup} (h : WFGroup g) :
    WFGroup (applyAll ms g) := by
  induction ms generalizing g with
  | nil => exact h
  | cons m rest ih => exact ih (WFGroup_applyMut m h)

theorem sortedKeys_cross {α : Type} {acc l : List (String × α)}
    (h : SortedKeys (acc ++ l)) : ∀ x ∈ acc, ∀ y ∈ l, x.1 < y.1 :=
  (List.pairwise_append.mp h).2.2

theorem sortedKeys_left {α : Type} {acc l : List (String × α)}
    (h : SortedKeys (acc ++ l)) : SortedKeys acc :=
  (List.pairwise_append.mp h).1

theorem sortedKeys_right {α : Type} {acc l : List (String × α)}
    (h : SortedKeys (acc ++ l)) : SortedKeys l :=
  (List.pairwise_append.mp h).2.1

theorem sortedKeys_insert_mid {α : Type} {acc r : List (String × α)} {b : String}
    (v : α) (ha : SortedKeys (acc ++ r)) (hacc : ∀ x ∈ acc, x.1 < b)
    (hr : ∀ x ∈ r, b < x.1) : SortedKeys (acc ++ (b, v) :: r) := by
  rw [SortedKeys, List.pairwise_append] at ha ⊢
  obtain ⟨h1, h2, h3⟩ := ha
  refine ⟨h1, ?_, ?_⟩
  · rw [List.pairwise_cons]
    exact ⟨fun y hy => hr y hy, h2⟩
  · intro x hx y hy
    rcases List.mem_cons.mp hy with rfl | hy
    · exact hacc x hx
    · exact h3 x hx y hy

theorem sortedKeys_drop_mid {α : Type} {acc r : List (String × α)} {b : String}
    {v : α} (h : SortedKeys (acc ++ (b, v) :: r)) : SortedKeys (acc ++ r) :=
  List.Pairwise.sublist
    (List.Sublist.append_left (List.sublist_cons_self (b, v) r) acc) h

/-- A proposed change to one entry of an association list. -/
inductive EntryOp (α : Type) where
  | set (k : String) (v : α)
  | del (k : String)
deriving DecidableEq, Repr

/-- Apply one entry change to an association list. -/
def applyEntryOp {α : Type} : EntryOp α → List (String × α) → List (String × α)
  | .set k v, l => insertA k v l
  | .del k, l => eraseA k l

/-- Apply a list of entry changes in order. -/
def applyEntryOps {α : Type} (ops : List (EntryOp α)) (l : List (String × α)) :
    List (String × α) :=
  ops.foldl (fun t op => applyEntryOp op t) l

theorem applyEntryOps_nil {α : Type} (l : List (String × α)) :
    applyEntryOps [] l = l := rfl

theorem applyEntryOps_cons {α : Type} (op : EntryOp α) (ops : List (EntryOp α))
    (l : List (String × α)) :
    applyEntryOps (op :: ops) l = applyEntryOps ops (applyEntryOp op l) := rfl

theorem applyEntryOps_append {α : Type} (ops1 ops2 : List (EntryOp α))
    (l : List (String × α)) :
    applyEntryOps (ops1 ++ ops2) l = applyEntryOps ops2 (applyEntryOps ops1 l) :=
  List.foldl_append _ _ _ _

/-- Modelled from the spec: the minimal set of entry changes turning one
key-sorted association list into another (part of the structural diff
between two configuration trees). -/
def diffEntries {α : Type} [DecidableEq α] :
    List (String × α) → List (String × α) → List (EntryOp α)
  | [], [] => []
  | [], (b, v) :: r2 => .set b v :: diffEntries [] r2
  | (a, _) :: r1, [] => .del a :: diffEntries r1 []
  | (a, v1) :: r1, (b, v2) :: r2 =>
    if a < b then .del a :: diffEntries r1 ((b, v2) :: r2)
    else if b < a then .set b v2 :: diffEntries ((a, v1) :: r1) r2
    else (if v1 = v2 then [] else [.set b v2]) ++ diffEntries r1 r2
termination_by l1 l2 => l1.length + l2.length

/-- Replaying the entry diff of two sorted lists onto the first list
(below any common sorted prefix `acc`) reconstructs the second. -/
theorem entriesRT {α : Type} [DecidableEq α] :
    ∀ (l1 l2 acc : List (String × α)), SortedKeys (acc ++ l1) →
      SortedKeys (acc ++ l2) →
      applyEntryOps (diffEntries l1 l2) (acc ++ l1) = acc ++ l2
  | [], [], acc, _, _ => by simp [diffEntries, applyEntryOps]
  | [], (b, v) :: r2, acc, h1, h2 => by
    have hacc : ∀ x ∈ acc, x.1 < b :=
      fun x hx => sortedKeys_cross h2 x hx (b, v) (List.mem_cons_self _ _)
    rw [diffEntries, applyEntryOps_cons]
    have step : applyEntryOp (.set b v) (acc ++ ([] : List (String × α))) =
        (acc ++ [(b, v)]) ++ [] := by
      simp only [applyEntryOp, List.append_nil]
      have h0 := insertA_append_of_lt hacc v ([] : List (String × α))
      rw [List.append_nil] at h0
      rw [h0, insertA]
    have h1' : SortedKeys ((acc ++ [(b, v)]) ++ []) := by
      rw [List.append_nil]
      exact List.Pairwise.sublist (List.Sublist.append_left
        (List.Sublist.cons₂ (b, v) (List.nil_sublist r2)) acc) h2
    have h2' : SortedKeys ((acc ++ [(b, v)]) ++ r2) := by
      rw [List.append_assoc]
      exact h2
    rw [step, entriesRT [] r2 (acc ++ [(b, v)]) h1' h2']
    simp
  | (a, v1) :: r1, [], acc, h1, h2 => by
    have hacc : ∀ x ∈ acc, x.1 ≠ a := fun x hx =>
      ne_of_lt (sortedKeys_cross h1 x hx (a, v1) (List.mem_cons_self _ _))
    have hr : ∀ x ∈ r1, x.1 ≠ a := fun x hx =>
      ne_of_gt ((List.pairwise_cons.mp (sortedKeys_right h1)).1 x hx)
    rw [diffEntries, applyEntryOps_cons]
    have step : applyEntryOp (.del a) (acc ++ (a, v1) :: r1) = acc ++ r1 := by
      simp only [applyEntryOp]
      exact eraseA_middle hacc hr v1
    rw [step, entriesRT r1 [] acc (sortedKeys_drop_mid h1) h2]
  | (a, v1) :: r1, (b, v2) :: r2, acc, h1, h2 => by
    rw [diffEntries]
    by_cases hab : a < b
    · rw [if_pos hab, applyEntryOps_cons]
      have hacc : ∀ x ∈ acc, x.1 ≠ a := fun x hx =>
        ne_of_lt (sortedKeys_cross h1 x hx (a, v1) (List.mem_cons_self _ _))
      have hr : ∀ x ∈ r1, x.1 ≠ a := fun x hx =>
        ne_of_gt ((List.pairwise_cons.mp (sortedKeys_right h1)).1 x hx)
      have step : applyEntryOp (.del a) (acc ++ (a, v1) :: r1) = acc ++ r1 := by
        simp only [applyEntryOp]
        exact eraseA_middle hacc hr v1
      rw [step, entriesRT r1 ((b, v2) :: r2) acc (sortedKeys_drop_mid h1) h2]
    · rw [if_neg hab]
      by_cases hba : b < a
      · rw [if_pos hba, applyEntryOps_cons]
        have hacc : ∀ x ∈ acc, x.1 < b :=
          fun x hx => sortedKeys_cross h2 x hx (b, v2) (List.mem_cons_self _ _)
        have step : applyEntryOp (.set b v2) (acc ++ (a, v1) :: r1) =
            (acc ++ [(b, v2)]) ++ (a, v1) :: r1 := by
          simp only [applyEntryOp]
          rw [insertA_append_of_lt hacc, insertA, if_pos hba, List.append_assoc]
          rfl
        have hr : ∀ x ∈ (a, v1) :: r1, b < x.1 := by
          intro x hx
          rcases List.mem_cons.mp hx with rfl | hx
          · exact hba
          · exact hba.trans ((List.pairwise_cons.mp (sortedKeys_right h1)).1 x hx)
        have h1' : SortedKeys ((acc ++ [(b, v2)]) ++ (a, v1) :: r1) := by
          rw [List.append_assoc]
          exact sortedKeys_insert_mid v2 h1 hacc hr
        have h2' : SortedKeys ((acc ++ [(b, v2)]) ++ r2) := by
          rw [List.append_assoc]
          exact h2
        rw [step, entriesRT ((a, v1) :: r1) r2 (acc ++ [(b, v2)]) h1' h2']
        simp
      · have hba2 : a = b := le_antisymm (not_lt.mp hba) (not_lt.mp hab)
        subst hba2
        rw [if_neg hba]
        by_cases hv : v1 = v2
        · subst hv
          have h1' : SortedKeys ((acc ++ [(a, v1)]) ++ r1) := by
            rw [List.append_assoc]
            exact h1
          have h2' : SortedKeys ((acc ++ [(a, v1)]) ++ r2) := by
            rw [List.append_assoc]
            exact h2
          rw [if_pos rfl, List.nil_append,
            show acc ++ (a, v1) :: r1 = (acc ++ [(a, v1)]) ++ r1 by simp,
            entriesRT r1 r2 (acc ++ [(a, v1)]) h1' h2']
          simp
        · rw [if_neg hv, List.singleton_append, applyEntryOps_cons]
          have hacc : ∀ x ∈ acc, x.1 < a :=
            fun x hx => sortedKeys_cross h1 x hx (a, v1) (List.mem_cons_self _ _)
          have step : applyEntryOp (.set a v2) (acc ++ (a, v1) :: r1) =
              (acc ++ [(a, v2)]) ++ r1 := by
            simp only [applyEntryOp]
            rw [insertA_append_of_lt hacc, insertA, if_neg (lt_irrefl a),
              if_pos rfl, List.append_assoc]
            rfl
          have hr : ∀ x ∈ r1, a < x.1 :=
            (List.pairwise_cons.mp (sortedKeys_right h1)).1
          have h1' : SortedKeys ((acc ++ [(a, v2)]) ++ r1) := by
            rw [List.append_assoc]
            exact sortedKeys_insert_mid v2 (sortedKeys_drop_mid h1) hacc hr
          have h2' : SortedKeys ((acc ++ [(a, v2)]) ++ r2) := by
            rw [List.append_assoc]
            exact h2
          rw [step, entriesRT r1 r2 (acc ++ [(a, v2)]) h1' h2']
          simp
termination_by l1 l2 => l1.length + l2.length

/-- Turn an entry change of the value map into a mutation at this node. -/
def valueMut : EntryOp ConfigValue → Mutation
  | .set k v => ⟨[], .setValue k v⟩
  | .del k => ⟨[], .deleteValue k⟩

/-- Turn an entry change of the policy map into a mutation at this node. -/
def policyMut : EntryOp ConfigPolicy → Mutation
  | .set k p => ⟨[], .setPolicy k p⟩
  | .del k => ⟨[], .deletePolicy k⟩

/-- Re-root a mutation below the sub-group `a`. -/
def shiftMut (a : String) (m : Mutation) : Mutation := ⟨a :: m.path, m.op⟩

mutual

/-- Modelled from the spec: the structural diff between two
configuration trees — the minimal set of changed groups, values and
policies turning the first tree into the second, expressed as mutations
with paths relative to the node being diffed. -/
def diffGroup : ConfigGroup → ConfigGroup → List Mutation
  | .node mp1 vs1 ps1 gs1, .node mp2 vs2 ps2 gs2 =>
    (if mp1 = mp2 then [] else [⟨[], .setModPolicy mp2⟩])
    ++ (diffEntries vs1 vs2).map valueMut
    ++ (diffEntries ps1 ps2).map policyMut
    ++ diffGroups gs1 gs2
termination_by g1 g2 => sizeOf g1 + sizeOf g2

/-- Diff of the two (key-sorted) sub-group maps of a node. -/
def diffGroups : List (String × ConfigGroup) → List (String × ConfigGroup) → List Mutation
  | [], [] => []
  | [], (b, g2) :: r2 => createMuts b g2 ++ diffGroups [] r2
  | (a, _) :: r1, [] => ⟨[], .deleteGroup a⟩ :: diffGroups r1 []
  | (a, g1) :: r1, (b, g2) :: r2 =>
    if a < b then ⟨[], .deleteGroup a⟩ :: diffGroups r1 ((b, g2) :: r2)
    else if b < a then createMuts b g2 ++ diffGroups ((a, g1) :: r1) r2
    else (diffGroup g1 g2).map (shiftMut a) ++ diffGroups r1 r2
termination_by l1 l2 => sizeOf l1 + sizeOf l2

/-- The mutations creating sub-group `name` with contents `g`. -/
def createMuts (name : String) (g : ConfigGroup) : List Mutation :=
  ⟨[], .newGroup name⟩ :: (groupBody g).map (shiftMut name)
termination_by 1 + sizeOf g

/-- The mutations filling an empty group to become `g`. -/
def groupBody : ConfigGroup → List Mutation
  | .node mp vs ps gs =>
    ⟨[], .setModPolicy mp⟩ ::
      ((vs.map fun kv => ⟨[], .setValue kv.1 kv.2⟩)
        ++ (ps.map fun kp => ⟨[], .setPolicy kp.1 kp.2⟩)
        ++ createList gs)
termination_by g => sizeOf g

/-- The mutations creating every sub-group of a list in order. -/
def createList : List (String × ConfigGroup) → List Mutation
  | [] => []
  | (a, g) :: r => createMuts a g ++ createList r
termination_by l => sizeOf l

end

theorem lookupA_middle {α : Type} {a : String} {acc r : List (String × α)}
    (hacc : ∀ x ∈ acc, x.1 ≠ a) (h0 : α) :
    lookupA a (acc ++ (a, h0) :: r) = some h0 := by
  rw [lookupA_append_of_ne hacc, lookupA, if_pos rfl]

theorem applyMut_shift (a : String) (m : Mutation) (mp : String)
    (vs : List (String × ConfigValue)) (ps : List (String × ConfigPolicy))
    (gs : List (String × ConfigGroup)) :
    applyMut (shiftMut a m) (.node mp vs ps gs) =
      .node mp vs ps (insertA a (applyMut m (childOr a gs)) gs) := rfl

theorem applyAll_shift_at {a : String} {acc r : List (String × ConfigGroup)}
    (hacc : ∀ x ∈ acc, x.1 < a) (L : List Mutation) (mp : String)
    (vs : List (String × ConfigValue)) (ps : List (String × ConfigPolicy)) :
    ∀ h0 : ConfigGroup,
      applyAll (L.map (shiftMut a)) (.node mp vs ps (acc ++ (a, h0) :: r)) =
        .node mp vs ps (acc ++ (a, applyAll L h0) :: r) := by
  induction L with
  | nil => intro h0; rfl
  | cons m rest ih =>
    intro h0
    rw [List.map_cons, applyAll_cons, applyMut_shift]
    have hch : childOr a (acc ++ (a, h0) :: r) = h0 := by
      rw [childOr, lookupA_middle (fun x hx => ne_of_lt (hacc x hx)) h0]
      rfl
    rw [hch, insertA_append_of_lt hacc, insertA, if_neg (lt_irrefl a), if_pos rfl,
      ih (applyMut m h0), applyAll_cons]

theorem applyAll_valueOps (ops : List (EntryOp ConfigValue)) (mp : String)
    (ps : List (String × ConfigPolicy)) (gs : List (String × ConfigGroup)) :
    ∀ vs : List (String × ConfigValue),
      applyAll (ops.map valueMut) (.node mp vs ps gs) =
        .node mp (applyEntryOps ops vs) ps gs := by
  induction ops with
  | nil => intro vs; rfl
  | cons op rest ih =>
    intro vs
    rw [List.map_cons, applyAll_cons, applyEntryOps_cons]
    cases op with
    | set k v => exact ih (insertA k v vs)
    | del k => exact ih (eraseA k vs)

theorem applyAll_policyOps (ops : List (EntryOp ConfigPolicy)) (mp : String)
    (vs : List (String × ConfigValue)) (gs : List (String × ConfigGroup)) :
    ∀ ps : List (String × ConfigPolicy),
      applyAll (ops.map policyMut) (.node mp vs ps gs) =
        .node mp vs (applyEntryOps ops ps) gs := by
  induction ops with
  | nil => intro ps; rfl
  | cons op rest ih =>
    intro ps
    rw [List.map_cons, applyAll_cons, applyEntryOps_cons]
    cases op with
    | set k p => exact ih (insertA k p ps)
    | del k => exact ih (eraseA k ps)

theorem foldl_insertA_sorted {α : Type} :
    ∀ (l acc : List (String × α)), SortedKeys (acc ++ l) →
      l.foldl (fun t kv => insertA kv.1 kv.2 t) acc = acc ++ l
  | [], acc, _ => by simp
  | (k, v) :: tl, acc, h => by
    have hacc : ∀ x ∈ acc, x.1 < k :=
      fun x hx => sortedKeys_cross h x hx (k, v) (List.mem_cons_self _ _)
    have step : insertA k v acc = acc ++ [(k, v)] := by
      have h0 := insertA_append_of_lt hacc v ([] : List (String × α))
      rw [List.append_nil] at h0
      rw [h0, insertA]
    have h' : SortedKeys ((acc ++ [(k, v)]) ++ tl) := by
      rw [List.append_assoc]
      exact h
    rw [List.foldl_cons, step, foldl_insertA_sorted tl (acc ++ [(k, v)]) h']
    simp

theorem applyAll_setValues (l : List (String × ConfigValue)) (mp : String)
    (ps : List (String × ConfigPolicy)) (gs : List (String × ConfigGroup)) :
    ∀ vs : List (String × ConfigValue),
      applyAll (l.map fun kv => ⟨[], .setValue kv.1 kv.2⟩) (.node mp vs ps gs) =
        .node mp (l.foldl (fun t kv => insertA kv.1 kv.2 t) vs) ps gs := by
  induction l with
  | nil => intro vs; rfl
  | cons kv tl ih =>
    intro vs
    rw [List.map_cons, applyAll_cons, List.foldl_cons]
    exact ih (insertA kv.1 kv.2 vs)

theorem applyAll_setPolicies (l : List (String × ConfigPolicy)) (mp : String)
    (vs : List (String × ConfigValue)) (gs : List (String × ConfigGroup)) :
    ∀ ps : List (String × ConfigPolicy),
      applyAll (l.map fun kp => ⟨[], .setPolicy kp.1 kp.2⟩) (.node mp vs ps gs) =
        .node mp vs (l.foldl (fun t kp => insertA kp.1 kp.2 t) ps) gs := by
  induction l with
  | nil => intro ps; rfl
  | cons kp tl ih =>
    intro ps
    rw [List.map_cons, applyAll_cons, List.foldl_cons]
    exact ih (insertA kp.1 kp.2 ps)

mutual

/-- Merging the structural diff of two well-formed trees into the first
tree reconstructs the second tree exactly. -/
theorem rtGroup : ∀ (g1 g2 : ConfigGroup), WFGroup g1 → WFGroup g2 →
    applyAll (diffGroup g1 g2) g1 = g2
  | .node mp1 vs1 ps1 gs1, .node mp2 vs2 ps2 gs2, h1, h2 => by
    rcases h1 with ⟨_, _, _, _, hvs1, hps1, hgs1, hsub1⟩
    rcases h2 with ⟨_, _, _, _, hvs2, hps2, hgs2, hsub2⟩
    rw [diffGroup, applyAll_append, applyAll_append, applyAll_append]
    have s1 : applyAll (if mp1 = mp2 then [] else [⟨[], .setModPolicy mp2⟩])
        (ConfigGroup.node mp1 vs1 ps1 gs1) = .node mp2 vs1 ps1 gs1 := by
      by_cases hmp : mp1 = mp2
      · subst hmp
        rw [if_pos rfl]
        rfl
      · rw [if_neg hmp]
        rfl
    have e1 : applyEntryOps (diffEntries vs1 vs2) vs1 = vs2 := by
      have h := entriesRT vs1 vs2 []
        (by rw [List.nil_append]; exact hvs1)
        (by rw [List.nil_append]; exact hvs2)
      rwa [List.nil_append, List.nil_append] at h
    have e2 : applyEntryOps (diffEntries ps1 ps2) ps1 = ps2 := by
      have h := entriesRT ps1 ps2 []
        (by rw [List.nil_append]; exact hps1)
        (by rw [List.nil_append]; exact hps2)
      rwa [List.nil_append, List.nil_append] at h
    rw [s1, applyAll_valueOps, e1, applyAll_policyOps, e2]
    have h := rtGroups gs1 gs2 [] mp2 vs2 ps2
      (by rw [List.nil_append]; exact hgs1)
      (by rw [List.nil_append]; exact hgs2)
      hsub1 hsub2
    rwa [List.nil_append, List.nil_append] at h
termination_by g1 g2 => sizeOf g1 + sizeOf g2

/-- Replaying the diff of two sorted sub-group maps (below a common
prefix `acc`) onto a node holding the first map yields the second. -/
theorem rtGroups : ∀ (l1 l2 acc : List (String × ConfigGroup)) (mp : String)
    (vs : List (String × ConfigValue)) (ps : List (String × ConfigPolicy)),
    SortedKeys (acc ++ l1) → SortedKeys (acc ++ l2) →
    (∀ x ∈ l1, WFGroup x.2) → (∀ x ∈ l2, WFGroup x.2) →
    applyAll (diffGroups l1 l2) (.node mp vs ps (acc ++ l1)) =
      .node mp vs ps (acc ++ l2)
  | [], [], acc, mp, vs, ps, _, _, _, _ => by
    rw [diffGroups]
    rfl
  | [], (b, g2) :: r2, acc, mp, vs, ps, h1, h2, hl1, hl2 => by
    rw [diffGroups, applyAll_append]
    have hacc : ∀ x ∈ acc, x.1 < b :=
      fun x hx => sortedKeys_cross h2 x hx (b, g2) (List.mem_cons_self _ _)
    have hr : ∀ x ∈ ([] : List (String × ConfigGroup)), b < x.1 := by
      intro x hx
      exact absurd hx (List.not_mem_nil x)
    rw [rtCreate b g2 acc [] mp vs ps (hl2 (b, g2) (List.mem_cons_self _ _)) hacc hr]
    have heq : acc ++ (b, g2) :: ([] : List (String × ConfigGroup)) =
        (acc ++ [(b, g2)]) ++ [] := by simp
    rw [heq, rtGroups [] r2 (acc ++ [(b, g2)]) mp vs ps ?_ ?_ ?_ ?_]
    · simp
    · rw [List.append_nil]
      exact List.Pairwise.sublist (List.Sublist.append_left
        (List.Sublist.cons₂ (b, g2) (List.nil_sublist r2)) acc) h2
    · rw [List.append_assoc]
      exact h2
    · intro x hx
      exact absurd hx (List.not_mem_nil x)
    · exact fun x hx => hl2 x (List.mem_cons_of_mem _ hx)
  | (a, g1) :: r1, [], acc, mp, vs, ps, h1, h2, hl1, hl2 => by
    rw [diffGroups, applyAll_cons]
    have hne1 : ∀ x ∈ acc, x.1 ≠ a := fun x hx =>
      ne_of_lt (sortedKeys_cross h1 x hx (a, g1) (List.mem_cons_self _ _))
    have hne2 : ∀ x ∈ r1, x.1 ≠ a := fun x hx =>
      ne_of_gt ((List.pairwise_cons.mp (sortedKeys_right h1)).1 x hx)
    have hdel : applyMut ⟨[], MutOp.deleteGroup a⟩
        (ConfigGroup.node mp vs ps (acc ++ (a, g1) :: r1)) =
        ConfigGroup.node mp vs ps (acc ++ r1) := by
      show ConfigGroup.node mp vs ps (eraseA a (acc ++ (a, g1) :: r1)) = _
      rw [eraseA_middle hne1 hne2]
    rw [hdel, rtGroups r1 [] acc mp vs ps (sortedKeys_drop_mid h1) h2
      (fun x hx => hl1 x (List.mem_cons_of_mem _ hx)) hl2]
  | (a, g1) :: r1, (b, g2) :: r2, acc, mp, vs, ps, h1, h2, hl1, hl2 => by
    rw [diffGroups]
    by_cases hab : a < b
    · rw [if_pos hab, applyAll_cons]
      have hne1 : ∀ x ∈ acc, x.1 ≠ a := fun x hx =>
        ne_of_lt (sortedKeys_cross h1 x hx (a, g1) (List.mem_cons_self _ _))
      have hne2 : ∀ x ∈ r1, x.1 ≠ a := fun x hx =>
        ne_of_gt ((List.pairwise_cons.mp (sortedKeys_right h1)).1 x hx)
      have hdel : applyMut ⟨[], MutOp.deleteGroup a⟩
          (ConfigGroup.node mp vs ps (acc ++ (a, g1) :: r1)) =
          ConfigGroup.node mp vs ps (acc ++ r1) := by
        show ConfigGroup.node mp vs ps (eraseA a (acc ++ (a, g1) :: r1)) = _
        rw [eraseA_middle hne1 hne2]
      rw [hdel, rtGroups r1 ((b, g2) :: r2) acc mp vs ps (sortedKeys_drop_mid h1) h2
        (fun x hx => hl1 x (List.mem_cons_of_mem _ hx)) hl2]
    · rw [if_neg hab]
      by_cases hba : b < a
      · rw [if_pos hba, applyAll_append]
        have hacc : ∀ x ∈ acc, x.1 < b :=
          fun x hx => sortedKeys_cross h2 x hx (b, g2) (List.mem_cons_self _ _)
        have hr : ∀ x ∈ (a, g1) :: r1, b < x.1 := by
          intro x hx
          rcases List.mem_cons.mp hx with rfl | hx
          · exact hba
          · exact hba.trans ((List.pairwise_cons.mp (sortedKeys_right h1)).1 x hx)
        rw [rtCreate b g2 acc ((a, g1) :: r1) mp vs ps
          (hl2 (b, g2) (List.mem_cons_self _ _)) hacc hr]
        have heq : acc ++ (b, g2) :: (a, g1) :: r1 =
            (acc ++ [(b, g2)]) ++ (a, g1) :: r1 := by simp
        rw [heq, rtGroups ((a, g1) :: r1) r2 (acc ++ [(b, g2)]) mp vs ps ?_ ?_ hl1 ?_]
        · simp
        · rw [List.append_assoc]
          exact sortedKeys_insert_mid g2 h1 hacc hr
        · rw [List.append_assoc]
          exact h2
        · exact fun x hx => hl2 x (List.mem_cons_of_mem _ hx)
      · have hba2 : a = b := le_antisymm (not_lt.mp hba) (not_lt.mp hab)
        subst hba2
        rw [if_neg hba, applyAll_append]
        have hacc : ∀ x ∈ acc, x.1 < a :=
          fun x hx => sortedKeys_cross h1 x hx (a, g1) (List.mem_cons_self _ _)
        have har1 : ∀ x ∈ r1, a < x.1 :=
          (List.pairwise_cons.mp (sortedKeys_right h1)).1
        rw [applyAll_shift_at hacc (diffGroup g1 g2) mp vs ps g1,
          rtGroup g1 g2 (hl1 (a, g1) (List.mem_cons_self _ _))
            (hl2 (a, g2) (List.mem_cons_self _ _))]
        have heq : acc ++ (a, g2) :: r1 = (acc ++ [(a, g2)]) ++ r1 := by simp
        rw [heq, rtGroups r1 r2 (acc ++ [(a, g2)]) mp vs ps ?_ ?_ ?_ ?_]
        · simp
        · rw [List.append_assoc]
          exact sortedKeys_insert_mid g2 (sortedKeys_drop_mid h1) hacc har1
        · rw [List.append_assoc]
          exact h2
        · exact fun x hx => hl1 x (List.mem_cons_of_mem _ hx)
        · exact fun x hx => hl2 x (List.mem_cons_of_mem _ hx)
termination_by l1 l2 => sizeOf l1 + sizeOf l2

/-- Replaying the creation mutations of a well-formed group `g` inserts
`(b, g)` into the sub-group map at its sorted position. -/
theorem rtCreate : ∀ (b : String) (g : ConfigGroup)
    (acc r : List (String × ConfigGroup)) (mp : String)
    (vs : List (String × ConfigValue)) (ps : List (String × ConfigPolicy)),
    WFGroup g → (∀ x ∈ acc, x.1 < b) → (∀ x ∈ r, b < x.1) →
    applyAll (createMuts b g) (.node mp vs ps (acc ++ r)) =
      .node mp vs ps (acc ++ (b, g) :: r)
  | b, g, acc, r, mp, vs, ps, hg, hacc, hr => by
    rw [createMuts, applyAll_cons]
    have hnew : applyMut ⟨[], MutOp.newGroup b⟩
        (ConfigGroup.node mp vs ps (acc ++ r)) =
        ConfigGroup.node mp vs ps (acc ++ (b, emptyGroup) :: r) := by
      show ConfigGroup.node mp vs ps (insertA b emptyGroup (acc ++ r)) = _
      rw [insertA_append_of_lt hacc]
      cases r with
      | nil => rw [insertA]
      | cons hd tl =>
        obtain ⟨c, x⟩ := hd
        rw [insertA, if_pos (hr (c, x) (List.mem_cons_self _ _))]
    rw [hnew, applyAll_shift_at hacc (groupBody g) mp vs ps emptyGroup,
      rtBody g hg]
termination_by b g => 1 + sizeOf g

/-- Replaying the body mutations of a well-formed group onto the empty
group reconstructs the group. -/
theorem rtBody : ∀ (g : ConfigGroup), WFGroup g →
    applyAll (groupBody g) emptyGroup = g
  | .node mp vs ps gs, hg => by
    rcases hg with ⟨_, _, _, _, hvs, hps, hgs, hsub⟩
    rw [groupBody, applyAll_cons]
    have hmp : applyMut ⟨[], MutOp.setModPolicy mp⟩ emptyGroup =
        ConfigGroup.node mp [] [] [] := rfl
    rw [hmp, applyAll_append, applyAll_append, applyAll_setValues,
      foldl_insertA_sorted vs [] (by rw [List.nil_append]; exact hvs),
      applyAll_setPolicies,
      foldl_insertA_sorted ps [] (by rw [List.nil_append]; exact hps)]
    rw [List.nil_append, List.nil_append]
    have h := rtCreateList gs [] mp vs ps
      (fun x _ y hy => absurd hy (List.not_mem_nil y)) hgs hsub
    rwa [List.nil_append] at h
termination_by g => sizeOf g

/-- Replaying the creation mutations of a sorted list of well-formed
sub-groups appends them to the sub-group map. -/
theorem rtCreateList : ∀ (l acc : List (String × ConfigGroup)) (mp : String)
    (vs : List (String × ConfigValue)) (ps : List (String × ConfigPolicy)),
    (∀ x ∈ l, ∀ y ∈ acc, y.1 < x.1) → SortedKeys l → (∀ x ∈ l, WFGroup x.2) →
    applyAll (createList l) (.node mp vs ps acc) = .node mp vs ps (acc ++ l)
  | [], acc, mp, vs, ps, _, _, _ => by
    rw [createList, List.append_nil]
    rfl
  | (a, g) :: r, acc, mp, vs, ps, hcross, hsort, hwf => by
    rw [createList, applyAll_append]
    have hacc : ∀ x ∈ acc, x.1 < a :=
      fun x hx => hcross (a, g) (List.mem_cons_self _ _) x hx
    have hget : ConfigGroup.node mp vs ps acc =
        ConfigGroup.node mp vs ps (acc ++ []) := by rw [List.append_nil]
    rw [hget, rtCreate a g acc [] mp vs ps (hwf (a, g) (List.mem_cons_self _ _))
      hacc (fun x hx => absurd hx (List.not_mem_nil x))]
    have hcr : ∀ x ∈ r, ∀ y ∈ acc ++ [(a, g)], y.1 < x.1 := by
      intro x hx y hy
      rcases List.mem_append.mp hy with hy | hy
      · exact hcross x (List.mem_cons_of_mem _ hx) y hy
      · rcases List.mem_cons.mp hy with rfl | hy
        · exact (List.pairwise_cons.mp hsort).1 x hx
        · exact absurd hy (List.not_mem_nil y)
    have h := rtCreateList r (acc ++ [(a, g)]) mp vs ps hcr
      ((List.pairwise_cons.mp hsort).2) (fun x hx => hwf x (List.mem_cons_of_mem _ hx))
    rw [h]
    simp
termination_by l => sizeOf l

end

theorem childOr_insertA_self (a : String) (g : ConfigGroup)
    (gs : List (String × ConfigGroup)) : childOr a (insertA a g gs) = g := by
  rw [childOr, lookupA_insertA_self]
  rfl

theorem childOr_insertA_ne {a b : String} (h : a ≠ b) (g : ConfigGroup)
    (gs : List (String × ConfigGroup)) :
    childOr a (insertA b g gs) = childOr a gs := by
  rw [childOr, childOr, lookupA_insertA_ne h]

/-- Transformations applied at non-overlapping paths (neither path a
prefix of the other) commute. -/
theorem applyAt_comm : ∀ (p q : List String)
    (f h : ConfigGroup → ConfigGroup) (g : ConfigGroup),
    ¬ p <+: q → ¬ q <+: p →
    applyAt p f (applyAt q h g) = applyAt q h (applyAt p f g)
  | [], q, f, h, g, hpq, _ => absurd List.nil_prefix hpq
  | p, [], f, h, g, _, hqp => absurd List.nil_prefix hqp
  | a :: p, b :: q, f, h, .node mp vs ps gs, hpq, hqp => by
    by_cases hab : a = b
    · subst hab
      have hpq2 : ¬ p <+: q := fun hc => hpq (List.cons_prefix_cons.mpr ⟨rfl, hc⟩)
      have hqp2 : ¬ q <+: p := fun hc => hqp (List.cons_prefix_cons.mpr ⟨rfl, hc⟩)
      rw [applyAt, applyAt, applyAt, applyAt, childOr_insertA_self,
        childOr_insertA_self, insertA_insertA_self, insertA_insertA_self,
        applyAt_comm p q f h (childOr a gs) hpq2 hqp2]
    · rw [applyAt, applyAt, applyAt, applyAt, childOr_insertA_ne hab,
        childOr_insertA_ne (Ne.symm hab), insertA_comm (Ne.symm hab)]

/-- Modelled from the spec: `ConfigEnvelope`, the unit of transaction —
a signed update referencing a base sequence number, a set of
group/value/policy mutations, and signer identities for authorization. -/
structure ConfigEnvelope where
  baseSequence : Nat
  mutations : List Mutation
  signers : List String
deriving DecidableEq, Repr

/-- Modelled from the spec: the Manager's process-wide mutable state —
the committed configuration tree, the sequence counter, and the
`ConfigEnvelope` of the last successful Apply. -/
structure ManagerState where
  tree : ConfigGroup
  sequence : Nat
  lastConfig : Option ConfigEnvelope

/-- Modelled from the spec: the pluggable collaborators of the
coordinator, specified only at their interface boundary — whether
`BeginConfig` succeeds for a touched group path, which value keys are
owned by a registered Handler at a path, whether the owning Handler
accepts a proposed value (`none` proposes a deletion), whether the
PolicyHandler accepts a proposed policy, and whether a group's
mod-policy authorizes a signer set. -/
structure Env where
  beginOk : List String → Bool
  ownsKey : List String → String → Bool
  proposeOk : List String → String → Option ConfigValue → Bool
  proposePolicyOk : List String → String → Option ConfigPolicy → Bool
  authorized : List String → List String → Bool

/-- The observable calls the coordinator makes on its collaborators. -/
inductive Event where
  | beginEvt (path : List String)
  | proposeEvt (path : List String) (key : String)
  | proposePolicyEvt (path : List String) (key : String)
  | rollbackEvt (path : List String)
  | commitEvt (path : List String)
deriving DecidableEq, Repr

/-- Modelled from the spec: the error kinds surfaced to the caller. -/
inductive ConfigError where
  | staleSequence (expected got : Nat)
  | handlerInitFailure (path : List String)
  | unknownKey (path : List String) (key : String)
  | validationRejected (path : List String) (key : String)
  | policyMalformed (path : List String) (key : String)
  | authorizationDenied (path : List String)
deriving DecidableEq, Repr

/-- The distinct group paths touched by a diff. -/
def touchedPaths (d : List Mutation) : List (List String) :=
  (d.map (fun m => m.path)).dedup

/-- Modelled from the spec: propose one changed entry to its owner —
a changed value goes to the owning Handler (`ProposeConfig`), failing
with an unknown-config-key error when no registered Handler owns the
key; a changed policy goes to the PolicyHandler (`ProposePolicy`);
group-structure changes are not proposed to handlers. -/
def proposeCheck (env : Env) (m : Mutation) : Option ConfigError :=
  match m.op with
  | .setValue k v =>
    if ¬ env.ownsKey m.path k then some (.unknownKey m.path k)
    else if ¬ env.proposeOk m.path k (some v) then
      some (.validationRejected m.path k)
    else none
  | .deleteValue k =>
    if ¬ env.ownsKey m.path k then some (.unknownKey m.path k)
    else if ¬ env.proposeOk m.path k none then
      some (.validationRejected m.path k)
    else none
  | .setPolicy k p =>
    if ¬ env.proposePolicyOk m.path k (some p) then some (.policyMalformed m.path k)
    else none
  | .deletePolicy k =>
    if ¬ env.proposePolicyOk m.path k none then some (.policyMalformed m.path k)
    else none
  | .setModPolicy _ => none
  | .newGroup _ => none
  | .deleteGroup _ => none

/-- The propose-phase call made for one diff entry. -/
def proposeEvtOf (m : Mutation) : List Event :=
  match m.op with
  | .setValue k _ => [.proposeEvt m.path k]
  | .deleteValue k => [.proposeEvt m.path k]
  | .setPolicy k _ => [.proposePolicyEvt m.path k]
  | .deletePolicy k => [.proposePolicyEvt m.path k]
  | .setModPolicy _ => []
  | .newGroup _ => []
  | .deleteGroup _ => []

/-- Modelled from the spec: the propose phase — every changed entry is
proposed to its owner in diff order; the first failure aborts the
remaining proposals (fail-fast). -/
def proposePhase (env : Env) : List Mutation → Option ConfigError × List Event
  | [] => (none, [])
  | m :: rest =>
    match proposeCheck env m with
    | some e =>
      (some e, match e with
        | .unknownKey _ _ => []
        | _ => proposeEvtOf m)
    | none =>
      let r := proposePhase env rest
      (r.1, proposeEvtOf m ++ r.2)

/-- Modelled from the spec: the structural diff the coordinator
computes for an attempt — between the committed tree and the tree
implied by applying the envelope's mutations. -/
def diffOf (s : ManagerState) (e : ConfigEnvelope) : List Mutation :=
  diffGroup s.tree (applyAll e.mutations s.tree)

/-- Modelled from the spec: steps 1–5 of the coordinator state machine
for one Apply/Validate attempt — sequence check, structural diff
computation, Begin phase over every distinct touched group path,
fail-fast Propose phase over the diff, and the group-scoped
authorization check.  Returns the outcome (the candidate tree on
success), the Begin/Propose events made, and the group paths whose
Handlers were begun. -/
def runSteps (env : Env) (s : ManagerState) (e : ConfigEnvelope) :
    Except ConfigError ConfigGroup × List Event × List (List String) :=
  if e.baseSequence = s.sequence then
    let candidate := applyAll e.mutations s.tree
    let d := diffOf s e
    let touched := touchedPaths d
    let begun := touched.takeWhile env.beginOk
    let beginEvs := begun.map Event.beginEvt
    match touched.find? (fun p => ¬ env.beginOk p) with
    | some p => (.error (.handlerInitFailure p), beginEvs, begun)
    | none =>
      let pr := proposePhase env d
      match pr.1 with
      | some err => (.error err, beginEvs ++ pr.2, begun)
      | none =>
        match touched.find? (fun p => ¬ env.authorized p e.signers) with
        | some p => (.error (.authorizationDenied p), beginEvs ++ pr.2, begun)
        | none => (.ok candidate, beginEvs ++ pr.2, begun)
  else (.error (.staleSequence s.sequence e.baseSequence), [], [])

/-- Modelled from the spec: `Apply` executes the full state machine and
commits on success — `CommitConfig` on every begun Handler, the
committed tree replaced by the candidate tree, the sequence counter
advanced by exactly 1, and the envelope recorded; on failure
`RollbackConfig` is called on every begun Handler and the committed
state is left untouched. -/
def applyEnvelope (env : Env) (s : ManagerState) (e : ConfigEnvelope) :
    Except ConfigError Unit × List Event × ManagerState :=
  match runSteps env s e with
  | (.ok candidate, evs, begun) =>
    (.ok (), evs ++ begun.map Event.commitEvt,
      ⟨candidate, s.sequence + 1, some e⟩)
  | (.error err, evs, begun) =>
    (.error err, evs ++ begun.map Event.rollbackEvt, s)

/-- Modelled from the spec: `Validate` executes identical steps 1–5 but
always performs Rollback instead of Commit regardless of outcome, with
zero observable side effects on committed state. -/
def validateEnvelope (env : Env) (s : ManagerState) (e : ConfigEnvelope) :
    Except ConfigError Unit × List Event × ManagerState :=
  match runSteps env s e with
  | (.ok _, evs, begun) => (.ok (), evs ++ begun.map Event.rollbackEvt, s)
  | (.error err, evs, begun) => (.error err, evs ++ begun.map Event.rollbackEvt, s)

/-- All of steps 1–5 succeed: the sequence matches, every touched
path's `BeginConfig` succeeds, every proposal is accepted, and every
touched group's mod-policy authorizes the signer set. -/
def stepsOk (env : Env) (s : ManagerState) (e : ConfigEnvelope) : Prop :=
  e.baseSequence = s.sequence ∧
  (∀ p ∈ touchedPaths (diffOf s e), env.beginOk p = true) ∧
  (proposePhase env (diffOf s e)).1 = none ∧
  (∀ p ∈ touchedPaths (diffOf s e), env.authorized p e.signers = true)

theorem runSteps_stale (env : Env) (s : ManagerState) (e : ConfigEnvelope)
    (hseq : e.baseSequence ≠ s.sequence) :
    runSteps env s e = (.error (.staleSequence s.sequence e.baseSequence), [], []) := by
  rw [runSteps, if_neg hseq]

theorem runSteps_allOk (env : Env) (s : ManagerState) (e : ConfigEnvelope)
    (hseq : e.baseSequence = s.sequence)
    (hb : ∀ p ∈ touchedPaths (diffOf s e), env.beginOk p = true)
    (hp : (proposePhase env (diffOf s e)).1 = none)
    (ha : ∀ p ∈ touchedPaths (diffOf s e), env.authorized p e.signers = true) :
    runSteps env s e = (.ok (applyAll e.mutations s.tree),
      (touchedPaths (diffOf s e)).map Event.beginEvt ++
        (proposePhase env (diffOf s e)).2,
      touchedPaths (diffOf s e)) := by
  have hf1 : (touchedPaths (diffOf s e)).find? (fun p => ¬ env.beginOk p) = none :=
    List.find?_eq_none.mpr (fun x hx => by simp [hb x hx])
  have hf2 : (touchedPaths (diffOf s e)).find?
      (fun p => ¬ env.authorized p e.signers) = none :=
    List.find?_eq_none.mpr (fun x hx => by simp [ha x hx])
  have htw : (touchedPaths (diffOf s e)).takeWhile env.beginOk =
      touchedPaths (diffOf s e) :=
    List.takeWhile_eq_self_iff.mpr hb
  rw [runSteps, if_pos hseq]
  simp only [htw, hf1, hf2, hp]

theorem runSteps_beginFail (env : Env) (s : ManagerState) (e : ConfigEnvelope)
    (p : List String) (hseq : e.baseSequence = s.sequence)
    (hf : (touchedPaths (diffOf s e)).find? (fun p => ¬ env.beginOk p) = some p) :
    runSteps env s e = (.error (.handlerInitFailure p),
      ((touchedPaths (diffOf s e)).takeWhile env.beginOk).map Event.beginEvt,
      (touchedPaths (diffOf s e)).takeWhile env.beginOk) := by
  rw [runSteps, if_pos hseq]
  simp only [hf]

theorem runSteps_proposeFail (env : Env) (s : ManagerState) (e : ConfigEnvelope)
    (err : ConfigError) (hseq : e.baseSequence = s.sequence)
    (hb : ∀ p ∈ touchedPaths (diffOf s e), env.beginOk p = true)
    (hp : (proposePhase env (diffOf s e)).1 = some err) :
    runSteps env s e = (.error err,
      (touchedPaths (diffOf s e)).map Event.beginEvt ++
        (proposePhase env (diffOf s e)).2,
      touchedPaths (diffOf s e)) := by
  have hf1 : (touchedPaths (diffOf s e)).find? (fun p => ¬ env.beginOk p) = none :=
    List.find?_eq_none.mpr (fun x hx => by simp [hb x hx])
  have htw : (touchedPaths (diffOf s e)).takeWhile env.beginOk =
      touchedPaths (diffOf s e) :=
    List.takeWhile_eq_self_iff.mpr hb
  rw [runSteps, if_pos hseq]
  simp only [htw, hf1, hp]

theorem runSteps_authFail (env : Env) (s : ManagerState) (e : ConfigEnvelope)
    (p : List String) (hseq : e.baseSequence = s.sequence)
    (hb : ∀ p ∈ touchedPaths (diffOf s e), env.beginOk p = true)
    (hp : (proposePhase env (diffOf s e)).1 = none)
    (ha : (touchedPaths (diffOf s e)).find?
      (fun p => ¬ env.authorized p e.signers) = some p) :
    runSteps env s e = (.error (.authorizationDenied p),
      (touchedPaths (diffOf s e)).map Event.beginEvt ++
        (proposePhase env (diffOf s e)).2,
      touchedPaths (diffOf s e)) := by
  have hf1 : (touchedPaths (diffOf s e)).find? (fun p => ¬ env.beginOk p) = none :=
    List.find?_eq_none.mpr (fun x hx => by simp [hb x hx])
  have htw : (touchedPaths (diffOf s e)).takeWhile env.beginOk =
      touchedPaths (diffOf s e) :=
    List.takeWhile_eq_self_iff.mpr hb
  rw [runSteps, if_pos hseq]
  simp only [htw, hf1, hp, ha]

theorem applyEnvelope_error_state (env : Env) (s : ManagerState)
    (e : ConfigEnvelope) {err : ConfigError} {evs : List Event} {s' : ManagerState}
    (h : applyEnvelope env s e = (.error err, evs, s')) : s' = s := by
  rw [applyEnvelope] at h
  rcases hr : runSteps env s e with ⟨r, evs0, begun⟩
  rw [hr] at h
  cases r with
  | ok c => simp at h
  | error er =>
    simp only [Prod.mk.injEq] at h
    exact h.2.2.symm

theorem runSteps_ok_candidate (env : Env) (s : ManagerState) (e : ConfigEnvelope)
    {c : ConfigGroup} {evs0 : List Event} {begun : List (List String)}
    (h : runSteps env s e = (.ok c, evs0, begun)) :
    c = applyAll e.mutations s.tree := by
  rw [runSteps] at h
  split at h
  · dsimp only at h
    split at h
    · simp at h
    · split at h
      · simp at h
      · split at h
        · simp at h
        · simp only [Prod.mk.injEq] at h
          exact (Except.ok.inj h.1).symm
  · simp at h

theorem applyEnvelope_ok_state (env : Env) (s : ManagerState) (e : ConfigEnvelope)
    {evs : List Event} {s' : ManagerState}
    (h : applyEnvelope env s e = (.ok (), evs, s')) :
    s' = ⟨applyAll e.mutations s.tree, s.sequence + 1, some e⟩ := by
  rw [applyEnvelope] at h
  rcases hr : runSteps env s e with ⟨r, evs0, begun⟩
  rw [hr] at h
  cases r with
  | ok c =>
    simp only [Prod.mk.injEq] at h
    rw [← h.2.2, runSteps_ok_candidate env s e hr]
  | error er => simp at h

theorem validateEnvelope_state (env : Env) (s : ManagerState) (e : ConfigEnvelope) :
    (validateEnvelope env s e).2.2 = s := by
  rw [validateEnvelope]
  rcases hr : runSteps env s e with ⟨r, evs0, begun⟩
  cases r <;> rfl

theorem validate_ok_iff_apply_ok (env : Env) (s : ManagerState) (e : ConfigEnvelope) :
    (validateEnvelope env s e).1 = .ok () ↔ (applyEnvelope env s e).1 = .ok () := by
  rw [validateEnvelope, applyEnvelope]
  rcases hr : runSteps env s e with ⟨r, evs0, begun⟩
  cases r <;> simp

theorem apply_ok_stepsOk (env : Env) (s : ManagerState) (e : ConfigEnvelope)
    (h : (applyEnvelope env s e).1 = .ok ()) : stepsOk env s e := by
  by_cases hseq : e.baseSequence = s.sequence
  · rcases hfb : (touchedPaths (diffOf s e)).find? (fun p => ¬ env.beginOk p) with _ | p
    · have hb : ∀ p ∈ touchedPaths (diffOf s e), env.beginOk p = true := by
        intro p hp
        have := List.find?_eq_none.mp hfb p hp
        simpa using this
      rcases hpp : (proposePhase env (diffOf s e)).1 with _ | err
      · rcases hfa : (touchedPaths (diffOf s e)).find?
            (fun p => ¬ env.authorized p e.signers) with _ | p
        · have ha : ∀ p ∈ touchedPaths (diffOf s e),
              env.authorized p e.signers = true := by
            intro p hp
            have := List.find?_eq_none.mp hfa p hp
            simpa using this
          exact ⟨hseq, hb, hpp, ha⟩
        · rw [applyEnvelope, runSteps_authFail env s e p hseq hb hpp hfa] at h
          simp at h
      · rw [applyEnvelope, runSteps_proposeFail env s e err hseq hb hpp] at h
        simp at h
    · rw [applyEnvelope, runSteps_beginFail env s e p hseq hfb] at h
      simp at h
  · rw [applyEnvelope, runSteps_stale env s e hseq] at h
    simp at h

theorem stepsOk_apply (env : Env) (s : ManagerState) (e : ConfigEnvelope)
    (h : stepsOk env s e) :
    applyEnvelope env s e = (.ok (),
      ((touchedPaths (diffOf s e)).map Event.beginEvt ++
        (proposePhase env (diffOf s e)).2) ++
        (touchedPaths (diffOf s e)).map Event.commitEvt,
      ⟨applyAll e.mutations s.tree, s.sequence + 1, some e⟩) := by
  obtain ⟨hseq, hb, hp, ha⟩ := h
  rw [applyEnvelope, runSteps_allOk env s e hseq hb hp ha]

theorem proposeEvtOf_shape (m : Mutation) (ev : Event) (h : ev ∈ proposeEvtOf m) :
    (∃ p k, ev = .proposeEvt p k) ∨ (∃ p k, ev = .proposePolicyEvt p k) := by
  cases m with
  | mk path op =>
    cases op <;> simp [proposeEvtOf] at h <;> subst h
    · exact Or.inl ⟨path, _, rfl⟩
    · exact Or.inl ⟨path, _, rfl⟩
    · exact Or.inr ⟨path, _, rfl⟩
    · exact Or.inr ⟨path, _, rfl⟩

theorem proposePhase_events (env : Env) : ∀ (d : List Mutation) (ev : Event),
    ev ∈ (proposePhase env d).2 →
    (∃ p k, ev = .proposeEvt p k) ∨ (∃ p k, ev = .proposePolicyEvt p k) := by
  intro d
  induction d with
  | nil => intro ev h; simp [proposePhase] at h
  | cons m rest ih =>
    intro ev h
    rw [proposePhase] at h
    rcases hc : proposeCheck env m with _ | er
    · rw [hc] at h
      simp only at h
      rcases List.mem_append.mp h with h | h
      · exact proposeEvtOf_shape m ev h
      · exact ih ev h
    · rw [hc] at h
      simp only at h
      cases er <;> simp at h <;> exact proposeEvtOf_shape m ev (by simp [h])

theorem touchedPaths_nodup (d : List Mutation) : (touchedPaths d).Nodup :=
  List.nodup_dedup _

theorem count_commit_in_beginEvts (l : List (List String)) (q : List String) :
    ((l.map Event.beginEvt).count (Event.commitEvt q)) = 0 := by
  rw [List.count_eq_zero]
  simp

theorem count_rollback_in_beginEvts (l : List (List String)) (q : List String) :
    ((l.map Event.beginEvt).count (Event.rollbackEvt q)) = 0 := by
  rw [List.count_eq_zero]
  simp

theorem count_commit_in_rollbackEvts (l : List (List String)) (q : List String) :
    ((l.map Event.rollbackEvt).count (Event.commitEvt q)) = 0 := by
  rw [List.count_eq_zero]
  simp

theorem count_rollback_in_commitEvts (l : List (List String)) (q : List String) :
    ((l.map Event.commitEvt).count (Event.rollbackEvt q)) = 0 := by
  rw [List.count_eq_zero]
  simp

theorem rollbackEvt_injective : Function.Injective Event.rollbackEvt := by
  intro a b h
  injection h

theorem commitEvt_injective : Function.Injective Event.commitEvt := by
  intro a b h
  injection h

theorem count_rollback_in_rollbackEvts (l : List (List String)) (q : List String) :
    ((l.map Event.rollbackEvt).count (Event.rollbackEvt q)) =
      @List.count (List String) instBEqOfDecidableEq q l :=
  List.count_map_of_injective l Event.rollbackEvt rollbackEvt_injective q

theorem count_commit_in_commitEvts (l : List (List String)) (q : List String) :
    ((l.map Event.commitEvt).count (Event.commitEvt q)) =
      @List.count (List String) instBEqOfDecidableEq q l :=
  List.count_map_of_injective l Event.commitEvt commitEvt_injective q

theorem count_commit_in_propose (env : Env) (d : List Mutation) (q : List String) :
    ((proposePhase env d).2).count (Event.commitEvt q) = 0 := by
  rw [List.count_eq_zero]
  intro hmem
  rcases proposePhase_events env d _ hmem with ⟨p, k, hp⟩ | ⟨p, k, hp⟩ <;> simp at hp

theorem count_rollback_in_propose (env : Env) (d : List Mutation) (q : List String) :
    ((proposePhase env d).2).count (Event.rollbackEvt q) = 0 := by
  rw [List.count_eq_zero]
  intro hmem
  rcases proposePhase_events env d _ hmem with ⟨p, k, hp⟩ | ⟨p, k, hp⟩ <;> simp at hp

theorem runSteps_evs_clean (env : Env) (s : ManagerState) (e : ConfigEnvelope)
    (q : List String) :
    (runSteps env s e).2.1.count (Event.commitEvt q) = 0 ∧
    (runSteps env s e).2.1.count (Event.rollbackEvt q) = 0 := by
  rw [runSteps]
  split
  · dsimp only
    split
    · exact ⟨count_commit_in_beginEvts _ _, count_rollback_in_beginEvts _ _⟩
    · split
      · refine ⟨?_, ?_⟩
        · rw [List.count_append, count_commit_in_beginEvts,
            count_commit_in_propose]
        · rw [List.count_append, count_rollback_in_beginEvts,
            count_rollback_in_propose]
      · split
        · refine ⟨?_, ?_⟩
          · rw [List.count_append, count_commit_in_beginEvts,
              count_commit_in_propose]
          · rw [List.count_append, count_rollback_in_beginEvts,
              count_rollback_in_propose]
        · refine ⟨?_, ?_⟩
          · rw [List.count_append, count_commit_in_beginEvts,
              count_commit_in_propose]
          · rw [List.count_append, count_rollback_in_beginEvts,
              count_rollback_in_propose]
  · simp

theorem runSteps_begun_nodup (env : Env) (s : ManagerState) (e : ConfigEnvelope) :
    (runSteps env s e).2.2.Nodup := by
  rw [runSteps]
  split
  · dsimp only
    have h : (List.takeWhile env.beginOk (touchedPaths (diffOf s e))).Nodup :=
      (List.nodup_dedup _).sublist (List.takeWhile_sublist _)
    split
    · exact h
    · split
      · exact h
      · split
        · exact h
        · exact h
  · simp

theorem runSteps_begun_sub (env : Env) (s : ManagerState) (e : ConfigEnvelope) :
    ∀ q ∈ (runSteps env s e).2.2, q ∈ touchedPaths (diffOf s e) := by
  rw [runSteps]
  split
  · dsimp only
    have h : ∀ q ∈ List.takeWhile env.beginOk (touchedPaths (diffOf s e)),
        q ∈ touchedPaths (diffOf s e) :=
      fun q hq => (List.takeWhile_sublist _).mem hq
    split
    · exact h
    · split
      · exact h
      · split
        · exact h
        · exact h
  · simp

/-- Modelled from the spec: merge of a proposed diff into the committed
tree, producing the new candidate tree. -/
def mergeDiff (t : ConfigGroup) (d : List Mutation) : ConfigGroup :=
  applyAll d t

/-- The value key proposed by a mutation, when the mutation changes a
value entry. -/
def valueKey : MutOp → Option String
  | .setValue k _ => some k
  | .deleteValue k => some k
  | .setPolicy _ _ => none
  | .deletePolicy _ => none
  | .setModPolicy _ => none
  | .newGroup _ => none
  | .deleteGroup _ => none

theorem proposeCheck_unowned (env : Env) (m : Mutation) (k : String)
    (hk : valueKey m.op = some k) (ho : env.ownsKey m.path k = false) :
    proposeCheck env m = some (.unknownKey m.path k) := by
  cases hm : m.op <;> rw [hm] at hk <;> simp [valueKey] at hk
  · subst hk
    rw [proposeCheck, hm]
    simp [ho]
  · subst hk
    rw [proposeCheck, hm]
    simp [ho]

theorem proposePhase_unknown (env : Env) : ∀ (d : List Mutation),
    (∃ m ∈ d, ∃ k, valueKey m.op = some k ∧ env.ownsKey m.path k = false) →
    (∀ m ∈ d, ∀ k, valueKey m.op = some k → env.ownsKey m.path k = true →
      proposeCheck env m = none) →
    (∀ m ∈ d, valueKey m.op = none → proposeCheck env m = none) →
    ∃ p k, (proposePhase env d).1 = some (.unknownKey p k) ∧
      env.ownsKey p k = false := by
  intro d
  induction d with
  | nil =>
    rintro ⟨m, hm, _⟩ _ _
    exact absurd hm (List.not_mem_nil m)
  | cons m rest ih =>
    rintro ⟨m', hm', k', hk', ho'⟩ hclean hpol
    rcases hc : proposeCheck env m with _ | er
    · have hm'rest : m' ∈ rest := by
        rcases List.mem_cons.mp hm' with rfl | h
        · rw [proposeCheck_unowned env m' k' hk' ho'] at hc
          exact absurd hc (by simp)
        · exact h
      have hres := ih ⟨m', hm'rest, k', hk', ho'⟩
        (fun x hx => hclean x (List.mem_cons_of_mem _ hx))
        (fun x hx => hpol x (List.mem_cons_of_mem _ hx))
      obtain ⟨p, k, hpk, hpo⟩ := hres
      refine ⟨p, k, ?_, hpo⟩
      rw [proposePhase, hc]
      exact hpk
    · rcases hvk : valueKey m.op with _ | k
      · rw [hpol m (List.mem_cons_self _ _) hvk] at hc
        exact absurd hc (by simp)
      · rcases hov : env.ownsKey m.path k with _ | _
        · have her : er = .unknownKey m.path k := by
            rw [proposeCheck_unowned env m k hvk hov] at hc
            exact (Option.some.inj hc).symm
          refine ⟨m.path, k, ?_, hov⟩
          rw [proposePhase, hc, her]
        · rw [hclean m (List.mem_cons_self _ _) k hvk hov] at hc
          exact absurd hc (by simp)

/-- C1: for every envelope E whose Apply succeeds, the manager's
sequence counter strictly increases by exactly 1 and the committed tree
after Apply equals the previously committed tree merged with the
structural diff implied by E's mutations. -/
theorem claim1_apply_success_seq_and_merge (env : Env) (s : ManagerState)
    (e : ConfigEnvelope) (evs : List Event) (s' : ManagerState)
    (hwf : WFGroup s.tree)
    (h : applyEnvelope env s e = (.ok (), evs, s')) :
    s'.sequence = s.sequence + 1 ∧ s'.tree = mergeDiff s.tree (diffOf s e) := by
  have hs := applyEnvelope_ok_state env s e h
  subst hs
  refine ⟨rfl, ?_⟩
  show applyAll e.mutations s.tree = mergeDiff s.tree (diffOf s e)
  rw [mergeDiff, diffOf]
  exact (rtGroup s.tree (applyAll e.mutations s.tree) hwf
    (WFGroup_applyAll e.mutations hwf)).symm

/-- C2: the committed pair (tree, sequence) is modified only on the
commit step after an attempt in which every Begin, Propose and
authorization step succeeded; every failing Apply and every Validate
leaves the committed state exactly as it was. -/
theorem claim2_state_mutation_discipline (env : Env) (s : ManagerState)
    (e : ConfigEnvelope) :
    (∀ err evs s', applyEnvelope env s e = (.error err, evs, s') → s' = s) ∧
    (validateEnvelope env s e).2.2 = s ∧
    ((applyEnvelope env s e).1 = .ok () → stepsOk env s e) :=
  ⟨fun _ _ _ h => applyEnvelope_error_state env s e h,
   validateEnvelope_state env s e,
   apply_ok_stepsOk env s e⟩

/-- C3: an envelope whose declared base sequence differs from the
committed sequence fails with a StaleSequence error and leaves the
committed state (and trace) untouched. -/
theorem claim3_stale_sequence (env : Env) (s : ManagerState) (e : ConfigEnvelope)
    (h : e.baseSequence ≠ s.sequence) :
    applyEnvelope env s e =
      (.error (.staleSequence s.sequence e.baseSequence), [], s) := by
  rw [applyEnvelope, runSteps_stale env s e h]
  rfl

/-- C5: Validate never mutates the committed state, and Validate
succeeds exactly when an Apply of the same envelope from the same state
would succeed. -/
theorem claim5_validate_pure_and_equiv (env : Env) (s : ManagerState)
    (e : ConfigEnvelope) :
    (validateEnvelope env s e).2.2 = s ∧
    ((validateEnvelope env s e).1 = .ok () ↔ (applyEnvelope env s e).1 = .ok ()) :=
  ⟨validateEnvelope_state env s e, validate_ok_iff_apply_ok env s e⟩

/-- C8: two mutations on non-overlapping paths (neither path a prefix
of the other) of the same base tree commute: applying A then B yields a
tree identical to applying B then A. -/
theorem claim8_disjoint_mutations_commute (m1 m2 : Mutation) (g : ConfigGroup)
    (h1 : ¬ m1.path <+: m2.path) (h2 : ¬ m2.path <+: m1.path) :
    applyMut m2 (applyMut m1 g) = applyMut m1 (applyMut m2 g) :=
  applyAt_comm m2.path m1.path (applyOp m2.op) (applyOp m1.op) g h2 h1

/-- C9: the recorded ConfigEnvelope is exactly that of the most recent
successful Apply: a successful Apply records its envelope, and neither
a failed Apply nor any Validate changes the record. -/
theorem claim9_config_envelope_tracking (env : Env) (s : ManagerState)
    (e : ConfigEnvelope) :
    (∀ evs s', applyEnvelope env s e = (.ok (), evs, s') →
      s'.lastConfig = some e) ∧
    (∀ err evs s', applyEnvelope env s e = (.error err, evs, s') →
      s'.lastConfig = s.lastConfig) ∧
    (validateEnvelope env s e).2.2.lastConfig = s.lastConfig := by
  refine ⟨?_, ?_, ?_⟩
  · intro evs s' h
    rw [applyEnvelope_ok_state env s e h]
  · intro err evs s' h
    rw [applyEnvelope_error_state env s e h]
  · rw [validateEnvelope_state env s e]

/-- C4: when some Handler's ProposeConfig rejects a value, every
Handler begun in the attempt receives exactly one RollbackConfig call
and no Handler receives a CommitConfig call. -/
theorem claim4_propose_failure_rollback (env : Env) (s : ManagerState)
    (e : ConfigEnvelope) (p : List String) (k : String)
    (hseq : e.baseSequence = s.sequence)
    (hb : ∀ q ∈ touchedPaths (diffOf s e), env.beginOk q = true)
    (hp : (proposePhase env (diffOf s e)).1 = some (.validationRejected p k)) :
    ∀ q ∈ touchedPaths (diffOf s e),
      (applyEnvelope env s e).2.1.count (.rollbackEvt q) = 1 ∧
      (applyEnvelope env s e).2.1.count (.commitEvt q) = 0 := by
  intro q hq
  rw [applyEnvelope, runSteps_proposeFail env s e _ hseq hb hp]
  dsimp only
  constructor
  · rw [List.count_append, List.count_append, count_rollback_in_beginEvts,
      count_rollback_in_propose, count_rollback_in_rollbackEvts,
      List.count_eq_one_of_mem (touchedPaths_nodup _) hq]
  · rw [List.count_append, List.count_append, count_commit_in_beginEvts,
      count_commit_in_propose, count_commit_in_rollbackEvts]

/-- C6: if the mod-policy of any touched group denies the envelope's
signer set (and steps 1–4 pass), the whole attempt aborts with an
AuthorizationDenied error, the committed state is unchanged, and no
CommitConfig call is made. -/
theorem claim6_authorization_denied (env : Env) (s : ManagerState)
    (e : ConfigEnvelope)
    (hseq : e.baseSequence = s.sequence)
    (hb : ∀ q ∈ touchedPaths (diffOf s e), env.beginOk q = true)
    (hp : (proposePhase env (diffOf s e)).1 = none)
    (hd : ∃ q ∈ touchedPaths (diffOf s e), env.authorized q e.signers = false) :
    ∃ p ∈ touchedPaths (diffOf s e),
      env.authorized p e.signers = false ∧
      (applyEnvelope env s e).1 = .error (.authorizationDenied p) ∧
      (applyEnvelope env s e).2.2 = s ∧
      ∀ q, (applyEnvelope env s e).2.1.count (.commitEvt q) = 0 := by
  obtain ⟨q0, hq0, hauth⟩ := hd
  have hsome : ((touchedPaths (diffOf s e)).find?
      (fun p => ¬ env.authorized p e.signers)).isSome := by
    rw [List.find?_isSome]
    exact ⟨q0, hq0, by simp [hauth]⟩
  obtain ⟨p, hfp⟩ := Option.isSome_iff_exists.mp hsome
  have hpmem : p ∈ touchedPaths (diffOf s e) := List.mem_of_find?_eq_some hfp
  have hpauth : env.authorized p e.signers = false := by
    have hps := List.find?_some hfp
    simpa using hps
  refine ⟨p, hpmem, hpauth, ?_, ?_, ?_⟩
  · rw [applyEnvelope, runSteps_authFail env s e p hseq hb hp hfp]
  · rw [applyEnvelope, runSteps_authFail env s e p hseq hb hp hfp]
  · intro q
    rw [applyEnvelope, runSteps_authFail env s e p hseq hb hp hfp]
    dsimp only
    rw [List.count_append, List.count_append, count_commit_in_beginEvts,
      count_commit_in_propose, count_commit_in_rollbackEvts]

/-- C7: when the diff contains a changed value whose key is not owned
by any registered Handler at its path (and everything a Handler does
own is accepted), the attempt fails with an unknown-config-key error —
the key is not silently skipped — and the committed state is
unchanged. -/
theorem claim7_unknown_key (env : Env) (s : ManagerState) (e : ConfigEnvelope)
    (hseq : e.baseSequence = s.sequence)
    (hb : ∀ q ∈ touchedPaths (diffOf s e), env.beginOk q = true)
    (hsome : ∃ m ∈ diffOf s e, ∃ k, valueKey m.op = some k ∧
      env.ownsKey m.path k = false)
    (hclean : ∀ m ∈ diffOf s e, ∀ k, valueKey m.op = some k →
      env.ownsKey m.path k = true → proposeCheck env m = none)
    (hpol : ∀ m ∈ diffOf s e, valueKey m.op = none → proposeCheck env m = none) :
    ∃ p k, (applyEnvelope env s e).1 = .error (.unknownKey p k) ∧
      env.ownsKey p k = false ∧ (applyEnvelope env s e).2.2 = s := by
  obtain ⟨p, k, hpk, hpo⟩ := proposePhase_unknown env (diffOf s e) hsome hclean hpol
  refine ⟨p, k, ?_, hpo, ?_⟩
  · rw [applyEnvelope, runSteps_proposeFail env s e _ hseq hb hpk]
  · rw [applyEnvelope, runSteps_proposeFail env s e _ hseq hb hpk]

/-- C10: concluding an attempt cannot fail — the error surfaced by
Apply is exactly the error of steps 1–5 (the commit-or-rollback phase
never produces one), when steps 1–5 all succeed Apply succeeds, and
every begun participant is concluded by exactly one CommitConfig or
RollbackConfig call. -/
theorem claim10_conclusion_total (env : Env) (s : ManagerState)
    (e : ConfigEnvelope) :
    ((applyEnvelope env s e).1 = (runSteps env s e).1.map (fun _ => ())) ∧
    (stepsOk env s e → (applyEnvelope env s e).1 = .ok ()) ∧
    (∀ q ∈ (runSteps env s e).2.2,
      (applyEnvelope env s e).2.1.count (.commitEvt q) +
        (applyEnvelope env s e).2.1.count (.rollbackEvt q) = 1) := by
  refine ⟨?_, ?_, ?_⟩
  · rw [applyEnvelope]
    rcases hr : runSteps env s e with ⟨r, evs0, begun⟩
    cases r <;> rfl
  · intro h
    rw [stepsOk_apply env s e h]
  · intro q hq
    have hclean := runSteps_evs_clean env s e q
    have hnodup := runSteps_begun_nodup env s e
    rw [applyEnvelope]
    rcases hr : runSteps env s e with ⟨r, evs0, begun⟩
    rw [hr] at hclean hnodup hq
    cases r with
    | ok c =>
      dsimp only
      dsimp only at hclean hnodup hq
      rw [List.count_append, List.count_append, hclean.1, hclean.2,
        count_commit_in_commitEvts, count_rollback_in_commitEvts,
        List.count_eq_one_of_mem hnodup hq]
    | error er =>
      dsimp only
      dsimp only at hclean hnodup hq
      rw [List.count_append, List.count_append, hclean.1, hclean.2,
        count_commit_in_rollbackEvts, count_rollback_in_rollbackEvts,
        List.count_eq_one_of_mem hnodup hq]

/-- Collaborators that accept everything. -/
def envAllOk : Env :=
  ⟨fun _ => true, fun _ _ => true, fun _ _ _ => true, fun _ _ _ => true,
   fun _ _ => true⟩

/-- Collaborators whose Handlers reject every proposed value. -/
def envReject : Env :=
  ⟨fun _ => true, fun _ _ => true, fun _ _ _ => false, fun _ _ _ => true,
   fun _ _ => true⟩

/-- Collaborators whose policy evaluation denies every signer set. -/
def envNoAuth : Env :=
  ⟨fun _ => true, fun _ _ => true, fun _ _ _ => true, fun _ _ _ => true,
   fun _ _ => false⟩

/-- Collaborators with no registered Handler owning any value key. -/
def envNoOwner : Env :=
  ⟨fun _ => true, fun _ _ => false, fun _ _ _ => true, fun _ _ _ => true,
   fun _ _ => true⟩

/-- The initial manager state: empty committed tree, sequence 0. -/
def state0 : ManagerState := ⟨emptyGroup, 0, none⟩

/-- A small update envelope at base sequence 0 setting one value at the
root group. -/
def envelope0 : ConfigEnvelope := ⟨0, [⟨[], .setValue "k" ⟨"v", 0⟩⟩], ["admin"]⟩

/-- An envelope whose base sequence (3) is stale against `state0`. -/
def envelopeStale : ConfigEnvelope := ⟨3, [], []⟩

theorem claim1_witness :
    (applyEnvelope envAllOk state0 envelope0).2.2.sequence = state0.sequence + 1 ∧
    (applyEnvelope envAllOk state0 envelope0).2.2.tree =
      mergeDiff state0.tree (diffOf state0 envelope0) :=
  claim1_apply_success_seq_and_merge envAllOk state0 envelope0
    (applyEnvelope envAllOk state0 envelope0).2.1
    (applyEnvelope envAllOk state0 envelope0).2.2
    WFGroup_empty
    (by simp [applyEnvelope, runSteps, diffOf, applyAll, applyMut, applyAt,
      applyOp, emptyGroup, insertA, diffGroup, diffEntries, diffGroups,
      valueMut, touchedPaths, proposePhase, proposeCheck, proposeEvtOf,
      state0, envelope0, envAllOk])

theorem claim2_witness :
    (applyEnvelope envAllOk state0 envelopeStale).2.2 = state0 ∧
    stepsOk envAllOk state0 envelope0 :=
  ⟨(claim2_state_mutation_discipline envAllOk state0 envelopeStale).1
      (.staleSequence 0 3) [] (applyEnvelope envAllOk state0 envelopeStale).2.2
      (by simp [applyEnvelope, runSteps, diffOf, applyAll, applyMut, applyAt,
        applyOp, emptyGroup, insertA, diffGroup, diffEntries, diffGroups,
        valueMut, touchedPaths, proposePhase, proposeCheck, proposeEvtOf,
        state0, envelopeStale, envAllOk]),
   (claim2_state_mutation_discipline envAllOk state0 envelope0).2.2
      (by simp [applyEnvelope, runSteps, diffOf, applyAll, applyMut, applyAt,
        applyOp, emptyGroup, insertA, diffGroup, diffEntries, diffGroups,
        valueMut, touchedPaths, proposePhase, proposeCheck, proposeEvtOf,
        state0, envelope0, envAllOk])⟩

theorem claim3_witness :
    applyEnvelope envAllOk state0 envelopeStale =
      (.error (.staleSequence state0.sequence envelopeStale.baseSequence),
        [], state0) :=
  claim3_stale_sequence envAllOk state0 envelopeStale (by decide)

theorem claim4_witness :
    (applyEnvelope envReject state0 envelope0).2.1.count (.rollbackEvt []) = 1 ∧
    (applyEnvelope envReject state0 envelope0).2.1.count (.commitEvt []) = 0 :=
  claim4_propose_failure_rollback envReject state0 envelope0 [] "k" rfl
    (by simp [diffOf, applyAll, applyMut, applyAt, applyOp, emptyGroup,
      insertA, diffGroup, diffEntries, diffGroups, valueMut, touchedPaths,
      state0, envelope0, envReject])
    (by simp [diffOf, applyAll, applyMut, applyAt, applyOp, emptyGroup,
      insertA, diffGroup, diffEntries, diffGroups, valueMut, proposePhase,
      proposeCheck, state0, envelope0, envReject])
    []
    (by simp [diffOf, applyAll, applyMut, applyAt, applyOp, emptyGroup,
      insertA, diffGroup, diffEntries, diffGroups, valueMut, touchedPaths,
      state0, envelope0])

theorem claim6_witness :
    ∃ p ∈ touchedPaths (diffOf state0 envelope0),
      envNoAuth.authorized p envelope0.signers = false ∧
      (applyEnvelope envNoAuth state0 envelope0).1 =
        .error (.authorizationDenied p) ∧
      (applyEnvelope envNoAuth state0 envelope0).2.2 = state0 ∧
      ∀ q, (applyEnvelope envNoAuth state0 envelope0).2.1.count
        (.commitEvt q) = 0 :=
  claim6_authorization_denied envNoAuth state0 envelope0 rfl
    (by simp [diffOf, applyAll, applyMut, applyAt, applyOp, emptyGroup,
      insertA, diffGroup, diffEntries, diffGroups, valueMut, touchedPaths,
      state0, envelope0, envNoAuth])
    (by simp [diffOf, applyAll, applyMut, applyAt, applyOp, emptyGroup,
      insertA, diffGroup, diffEntries, diffGroups, valueMut, proposePhase,
      proposeCheck, proposeEvtOf, state0, envelope0, envNoAuth])
    ⟨[], by simp [diffOf, applyAll, applyMut, applyAt, applyOp, emptyGroup,
      insertA, diffGroup, diffEntries, diffGroups, valueMut, touchedPaths,
      state0, envelope0], rfl⟩

theorem claim7_witness :
    ∃ p k, (applyEnvelope envNoOwner state0 envelope0).1 =
        .error (.unknownKey p k) ∧
      envNoOwner.ownsKey p k = false ∧
      (applyEnvelope envNoOwner state0 envelope0).2.2 = state0 :=
  claim7_unknown_key envNoOwner state0 envelope0 rfl
    (by simp [diffOf, applyAll, applyMut, applyAt, applyOp, emptyGroup,
      insertA, diffGroup, diffEntries, diffGroups, valueMut, touchedPaths,
      state0, envelope0, envNoOwner])
    ⟨⟨[], .setValue "k" ⟨"v", 0⟩⟩,
      by simp [diffOf, applyAll, applyMut, applyAt, applyOp, emptyGroup,
        insertA, diffGroup, diffEntries, diffGroups, valueMut, state0,
        envelope0],
      "k", rfl, rfl⟩
    (by
      intro m hm k hk ho
      simp [envNoOwner] at ho)
    (by
      intro m hm hk
      simp [diffOf, applyAll, applyMut, applyAt, applyOp, emptyGroup,
        insertA, diffGroup, diffEntries, diffGroups, valueMut, state0,
        envelope0] at hm
      subst hm
      simp [valueKey] at hk)

theorem claim8_witness :
    applyMut ⟨["b"], .setValue "y" ⟨"2", 0⟩⟩
        (applyMut ⟨["a"], .setValue "x" ⟨"1", 0⟩⟩ emptyGroup) =
      applyMut ⟨["a"], .setValue "x" ⟨"1", 0⟩⟩
        (applyMut ⟨["b"], .setValue "y" ⟨"2", 0⟩⟩ emptyGroup) :=
  claim8_disjoint_mutations_commute ⟨["a"], .setValue "x" ⟨"1", 0⟩⟩
    ⟨["b"], .setValue "y" ⟨"2", 0⟩⟩ emptyGroup (by decide) (by decide)

theorem claim9_witness :
    (applyEnvelope envAllOk state0 envelope0).2.2.lastConfig = some envelope0 ∧
    (applyEnvelope envAllOk state0 envelopeStale).2.2.lastConfig =
      state0.lastConfig :=
  ⟨(claim9_config_envelope_tracking envAllOk state0 envelope0).1
      (applyEnvelope envAllOk state0 envelope0).2.1
      (applyEnvelope envAllOk state0 envelope0).2.2
      (by simp [applyEnvelope, runSteps, diffOf, applyAll, applyMut, applyAt,
        applyOp, emptyGroup, insertA, diffGroup, diffEntries, diffGroups,
        valueMut, touchedPaths, proposePhase, proposeCheck, proposeEvtOf,
        state0, envelope0, envAllOk]),
   (claim9_config_envelope_tracking envAllOk state0 envelopeStale).2.1
      (.staleSequence 0 3) [] (applyEnvelope envAllOk state0 envelopeStale).2.2
      (by simp [applyEnvelope, runSteps, diffOf, applyAll, applyMut, applyAt,
        applyOp, emptyGroup, insertA, diffGroup, diffEntries, diffGroups,
        valueMut, touchedPaths, proposePhase, proposeCheck, proposeEvtOf,
        state0, envelopeStale, envAllOk])⟩

theorem claim10_witness :
    (applyEnvelope envAllOk state0 envelope0).1 = .ok () ∧
    (applyEnvelope envAllOk state0 envelope0).2.1.count (.commitEvt []) +
      (applyEnvelope envAllOk state0 envelope0).2.1.count (.rollbackEvt []) = 1 :=
  ⟨(claim10_conclusion_total envAllOk state0 envelope0).2.1
      (by
        refine ⟨rfl, ?_, ?_, ?_⟩ <;>
        simp [diffOf, applyAll, applyMut, applyAt, applyOp, emptyGroup,
          insertA, diffGroup, diffEntries, diffGroups, valueMut, touchedPaths,
          proposePhase, proposeCheck, proposeEvtOf, state0, envelope0,
          envAllOk]),
   (claim10_conclusion_total envAllOk state0 envelope0).2.2 []
      (by simp [runSteps, diffOf, applyAll, applyMut, applyAt, applyOp,
        emptyGroup, insertA, diffGroup, diffEntries, diffGroups, valueMut,
        touchedPaths, proposePhase, proposeCheck, proposeEvtOf, state0,
        envelope0, envAllOk])⟩

end Fabric
